import Mathlib

/-!
Verification of the SplitBill assignment/settlement engine.
The program keeps an `Assignments` mapping (a JavaScript object keyed by
item id, values are arrays of person names), updates it with batches of
assign/unassign actions (`handleSendMessage` in `App.tsx`), and computes a
per-person settlement (`Summary.tsx`).  We embed the object as an
association list with unique-key update semantics, numbers as `ℚ`, and
the JavaScript `Set`-based deduplication as first-occurrence dedup.
Definitions come first, then all theorems.
-/

/-- Items extracted from the receipt (`ReceiptItem` in `types.ts`). -/
structure ReceiptItem where
  id : String
  name : String
  price : ℚ
  quantity : ℕ
deriving DecidableEq

/-- The parsed receipt (`ReceiptData` in `types.ts`). -/
structure ReceiptData where
  items : List ReceiptItem
  subtotal : ℚ
  tax : ℚ
  tip : ℚ
  total : ℚ
  currency : String
deriving DecidableEq

/-- The assignments object: itemId → array of person names.  A JavaScript
object has unique keys; we model it as an association list updated by
`setKey`, which replaces the first matching key or appends a new entry. -/
def Assignments : Type := List (String × List String)

instance : DecidableEq Assignments := by
  unfold Assignments
  infer_instance

/-- Kind of an `AssignmentAction` (`action` field in `types.ts`). -/
inductive ActionKind where
  | assign
  | unassign
deriving DecidableEq

/-- An assignment action from the command interpreter (`types.ts`). -/
structure AssignmentAction where
  itemIds : List String
  people : List String
  action : ActionKind
deriving DecidableEq

/-- Object property read: first entry with the given key. -/
def lookupA : Assignments → String → Option (List String)
  | [], _ => none
  | (k, v) :: rest, id => if k = id then some v else lookupA rest id

/-- `next[itemId] || []`: the item's list, or empty if absent. -/
def lookupD (a : Assignments) (id : String) : List String :=
  (lookupA a id).getD []

/-- Object property write `next[itemId] = v`: replace the first entry with
the key, or append a fresh entry. -/
def setKey : Assignments → String → List String → Assignments
  | [], id, v => [(id, v)]
  | (k, w) :: rest, id, v =>
      if k = id then (k, v) :: rest else (k, w) :: setKey rest id v

/-- Whether the object has the key at all. -/
def hasKey (a : Assignments) (id : String) : Bool :=
  (lookupA a id).isSome

/-- `Array.from(new Set(l))`: elements of `l` in first-occurrence order,
skipping anything already in `seen`. -/
def dedupFirst (seen : List String) : List String → List String
  | [] => []
  | x :: xs =>
      if x ∈ seen then dedupFirst seen xs
      else x :: dedupFirst (x :: seen) xs

/-- One item update of the reducer in `handleSendMessage` (`App.tsx`):
assign unions via a JavaScript `Set` built from current ++ people,
unassign filters the listed people out. -/
def applyActionItem (op : AssignmentAction) (next : Assignments)
    (itemId : String) : Assignments :=
  let currentAssignees := lookupD next itemId
  match op.action with
  | ActionKind.assign =>
      setKey next itemId (dedupFirst [] (currentAssignees ++ op.people))
  | ActionKind.unassign =>
      setKey next itemId (currentAssignees.filter (fun p => p ∉ op.people))

/-- The reducer body of `setAssignments` in `handleSendMessage`: a
left-to-right fold over the batch, and within each action over its
item ids. -/
def applyActions (prev : Assignments) (actions : List AssignmentAction) :
    Assignments :=
  actions.foldl
    (fun next op => op.itemIds.foldl (applyActionItem op) next) prev

/-- What one action does to the list stored at an id it targets, as a pure
list operation. -/
def actionOnList (op : AssignmentAction) (cur : List String) : List String :=
  match op.action with
  | ActionKind.assign => dedupFirst [] (cur ++ op.people)
  | ActionKind.unassign => cur.filter (fun p => p ∉ op.people)

/-- Union as worded by the spec: previously-assigned people keep their
relative order, newly added people are appended in the order given, and
duplicates collapse. -/
def specAssignUnion (cur ppl : List String) : List String :=
  cur ++ dedupFirst cur ppl

/-- Set difference as worded by the spec. -/
def specSetMinus (cur ppl : List String) : List String :=
  cur.filter (fun p => p ∉ ppl)

/-- One spec-side item update: read `current` (empty if absent), then
union for assign and difference for unassign. -/
def specApplyActionItem (op : AssignmentAction) (next : Assignments)
    (itemId : String) : Assignments :=
  let current := lookupD next itemId
  match op.action with
  | ActionKind.assign => setKey next itemId (specAssignUnion current op.people)
  | ActionKind.unassign => setKey next itemId (specSetMinus current op.people)

/-- The spec-side reducer: a left-to-right sequential fold over the batch
and, within an action, over its item ids. -/
def specApplyActions (prev : Assignments) (actions : List AssignmentAction) :
    Assignments :=
  actions.foldl
    (fun next op => op.itemIds.foldl (specApplyActionItem op) next) prev

/-- Well-formedness of an assignments state: every stored assignee list is
duplicate-free (the data model enforces that a person appears at most once
per item). -/
def WellFormed (a : Assignments) : Prop :=
  ∀ id, (lookupD a id).Nodup

/-- A per-person row of the settlement (`PersonTotal` in `types.ts`). -/
structure PersonTotal where
  name : String
  subtotal : ℚ
  tax : ℚ
  tip : ℚ
  total : ℚ
  items : List ReceiptItem
deriving DecidableEq

/-- The body of `assignedTo.forEach` in the `useMemo` of `Summary.tsx`: if
the person is not yet in the insertion-ordered `peopleMap`, add a zeroed
entry; then add the share to their subtotal and push the item. -/
def addShare (personName : String) (share : ℚ) (item : ReceiptItem) :
    List PersonTotal → List PersonTotal
  | [] => [{ name := personName, subtotal := share, tax := 0, tip := 0,
             total := 0, items := [item] }]
  | p :: ps =>
      if p.name = personName then
        { p with subtotal := p.subtotal + share, items := p.items ++ [item] } :: ps
      else
        p :: addShare personName share item ps

/-- One iteration of `data.items.forEach` in `Summary.tsx`: an item with no
assignees goes to `unassignedItems`; otherwise its price is split equally
among its assignees. -/
def summaryStep (assignments : Assignments)
    (st : List PersonTotal × List ReceiptItem) (item : ReceiptItem) :
    List PersonTotal × List ReceiptItem :=
  let assignedTo := lookupD assignments item.id
  if assignedTo = [] then
    (st.1, st.2 ++ [item])
  else
    let pricePerPerson := item.price / (assignedTo.length : ℚ)
    (assignedTo.foldl
      (fun m personName => addShare personName pricePerPerson item m) st.1,
     st.2)

/-- `totalAssignedSubtotal` in `Summary.tsx`: the sum of the accumulated
per-person subtotals. -/
def totalAssignedSubtotal (m : List PersonTotal) : ℚ :=
  (m.map (fun p => p.subtotal)).sum

/-- The whole `useMemo` computation of `Summary.tsx`: fold the items, then
distribute tax and tip proportionally to each person's share of the
receipt's stated subtotal. -/
def summary (data : ReceiptData) (assignments : Assignments) :
    List PersonTotal × List ReceiptItem :=
  let acc := data.items.foldl (summaryStep assignments) ([], [])
  let peopleList := acc.1.map (fun person =>
    let ratioOfTotal : ℚ :=
      if 0 < data.subtotal then person.subtotal / data.subtotal else 0
    { person with
        tax := data.tax * ratioOfTotal,
        tip := data.tip * ratioOfTotal,
        total := person.subtotal + data.tax * ratioOfTotal
                   + data.tip * ratioOfTotal })
  (peopleList, acc.2)

/-- The subtotal currently recorded for a person in the accumulator (0 if
the person has not been seen yet). -/
def subtotalOf (m : List PersonTotal) (personName : String) : ℚ :=
  ((m.find? (fun p => p.name = personName)).map (fun p => p.subtotal)).getD 0

/-- The people-map component of one settlement fold step, in isolation. -/
def peopleStep (assignments : Assignments) (m : List PersonTotal)
    (item : ReceiptItem) : List PersonTotal :=
  let assignedTo := lookupD assignments item.id
  if assignedTo = [] then m
  else
    assignedTo.foldl
      (fun m pn => addShare pn (item.price / (assignedTo.length : ℚ)) item m) m

/-- Message author (`role` field in `types.ts`). -/
inductive Role where
  | user
  | assistant
deriving DecidableEq

/-- A chat transcript entry (`ChatMessage` in `types.ts`). -/
structure ChatMessage where
  id : String
  role : Role
  text : String
  timestamp : Nat
deriving DecidableEq

/-- The interpreter's reply (`ChatResponse` in `types.ts`). -/
structure ChatResponse where
  reply : String
  assignments : List AssignmentAction

/-- The state touched by `handleSendMessage`: the assignments store and the
chat transcript. -/
structure AppState where
  assignments : Assignments
  messages : List ChatMessage
deriving DecidableEq

/-- The user's message, as built in `handleSendMessage` (ids and timestamps
come from `Date.now()`, passed here as `now`). -/
def userMessage (now : Nat) (text : String) : ChatMessage :=
  { id := toString now, role := Role.user, text := text, timestamp := now }

/-- The fixed apology appended when command interpretation fails. -/
def apologyText : String :=
  "Sorry, I had trouble understanding that. Could you try rephrasing?"

/-- State transition of `handleSendMessage` once the external
`processChatCommand` call has settled: the user message is always appended;
on success the reducer is applied and the reply appended; on failure the
assignments are left alone and the fixed apology is appended. -/
def handleSendMessage (st : AppState) (text : String) (now : Nat)
    (result : Except Unit ChatResponse) : AppState :=
  let messagesWithUser := st.messages ++ [userMessage now text]
  match result with
  | Except.ok response =>
      { assignments := applyActions st.assignments response.assignments,
        messages := messagesWithUser ++
          [{ id := toString (now + 1), role := Role.assistant,
             text := response.reply, timestamp := now }] }
  | Except.error _ =>
      { assignments := st.assignments,
        messages := messagesWithUser ++
          [{ id := toString (now + 1), role := Role.assistant,
             text := apologyText, timestamp := now }] }

/-- The burger of the spec's worked scenario. -/
def burgerItem : ReceiptItem :=
  { id := "1", name := "Burger", price := 10, quantity := 1 }

/-- The shared fries of the spec's worked scenario. -/
def friesItem : ReceiptItem :=
  { id := "2", name := "Fries", price := 6, quantity := 1 }

/-- The receipt of the spec's worked scenario
(`subtotal 16, tax 1.6, tip 3.2, total 20.8`). -/
def scenarioReceipt : ReceiptData :=
  { items := [burgerItem, friesItem], subtotal := 16, tax := 8 / 5,
    tip := 16 / 5, total := 104 / 5, currency := "$" }

/-- The scenario assignments: item 1 to Tom, item 2 shared by Tom and Ana. -/
def scenarioAssignments : Assignments :=
  [("1", ["Tom"]), ("2", ["Tom", "Ana"])]

/-- Tom's row in the worked scenario. -/
def scenarioTomRow : PersonTotal :=
  { name := "Tom", subtotal := 13, tax := 13 / 10, tip := 13 / 5,
    total := 169 / 10, items := [burgerItem, friesItem] }

/-- Ana's row in the worked scenario. -/
def scenarioAnaRow : PersonTotal :=
  { name := "Ana", subtotal := 3, tax := 3 / 10, tip := 3 / 5,
    total := 39 / 10, items := [friesItem] }

/- ### Theorems. -/

theorem lookupA_setKey_self (a : Assignments) (id : String)
    (v : List String) : lookupA (setKey a id v) id = some v := by
  induction a with
  | nil => simp [setKey, lookupA]
  | cons hd rest ih =>
      obtain ⟨k, w⟩ := hd
      by_cases h : k = id
      · simp [setKey, h, lookupA]
      · simp [setKey, h, lookupA, ih]

theorem lookupA_setKey_ne (a : Assignments) (id k : String)
    (v : List String) (h : id ≠ k) :
    lookupA (setKey a id v) k = lookupA a k := by
  induction a with
  | nil => simp [setKey, lookupA, h]
  | cons hd rest ih =>
      obtain ⟨k', w⟩ := hd
      by_cases h' : k' = id
      · subst h'
        simp [setKey, lookupA, h]
      · by_cases h'' : k' = k
        · subst h''
          simp [setKey, h', lookupA]
        · simp [setKey, h', lookupA, h'', ih]

theorem lookupD_setKey_self (a : Assignments) (id : String)
    (v : List String) : lookupD (setKey a id v) id = v := by
  simp [lookupD, lookupA_setKey_self]

theorem lookupD_setKey_ne (a : Assignments) (id k : String)
    (v : List String) (h : id ≠ k) :
    lookupD (setKey a id v) k = lookupD a k := by
  simp [lookupD, lookupA_setKey_ne a id k v h]

theorem hasKey_setKey_self (a : Assignments) (id : String)
    (v : List String) : hasKey (setKey a id v) id = true := by
  simp [hasKey, lookupA_setKey_self]

theorem hasKey_setKey_mono (a : Assignments) (id k : String)
    (v : List String) (h : hasKey a k = true) :
    hasKey (setKey a id v) k = true := by
  by_cases hik : id = k
  · subst hik
    exact hasKey_setKey_self a id v
  · simpa [hasKey, lookupA_setKey_ne a id k v hik] using h

theorem dedupFirst_congr (s t : List String) (l : List String)
    (h : ∀ y, y ∈ s ↔ y ∈ t) : dedupFirst s l = dedupFirst t l := by
  induction l generalizing s t with
  | nil => simp [dedupFirst]
  | cons x xs ih =>
      by_cases hx : x ∈ s
      · have hx' : x ∈ t := (h x).mp hx
        simp [dedupFirst, hx, hx', ih s t h]
      · have hx' : x ∉ t := fun hc => hx ((h x).mpr hc)
        have hcons : ∀ y, y ∈ x :: s ↔ y ∈ x :: t := by
          intro y
          simp [h y]
        simp [dedupFirst, hx, hx', ih (x :: s) (x :: t) hcons]

theorem dedupFirst_append (s l₁ l₂ : List String) :
    dedupFirst s (l₁ ++ l₂) =
      dedupFirst s l₁ ++ dedupFirst (l₁ ++ s) l₂ := by
  induction l₁ generalizing s with
  | nil => simp [dedupFirst]
  | cons x xs ih =>
      by_cases hx : x ∈ s
      · have hmem : ∀ y, y ∈ xs ++ s ↔ y ∈ (x :: xs) ++ s := by
          intro y
          simp only [List.mem_append, List.mem_cons]
          constructor
          · rintro (hy | hy)
            · exact Or.inl (Or.inr hy)
            · exact Or.inr hy
          · rintro ((rfl | hy) | hy)
            · exact Or.inr hx
            · exact Or.inl hy
            · exact Or.inr hy
        simp only [List.cons_append, dedupFirst, if_pos hx, List.append_eq]
        rw [ih s, dedupFirst_congr (xs ++ s) ((x :: xs) ++ s) l₂ hmem]
        simp
      · have hmem : ∀ y, y ∈ xs ++ x :: s ↔ y ∈ (x :: xs) ++ s := by
          intro y
          simp only [List.mem_append, List.mem_cons]
          tauto
        simp only [List.cons_append, dedupFirst, if_neg hx, List.append_eq]
        rw [ih (x :: s), dedupFirst_congr (xs ++ x :: s) ((x :: xs) ++ s) l₂ hmem]
        simp

theorem dedupFirst_eq_self (s l : List String) (hl : l.Nodup)
    (hs : ∀ x ∈ l, x ∉ s) : dedupFirst s l = l := by
  induction l generalizing s with
  | nil => simp [dedupFirst]
  | cons x xs ih =>
      have hx : x ∉ s := hs x (by simp)
      have hxs : ∀ y ∈ xs, y ∉ x :: s := by
        intro y hy
        simp only [List.mem_cons]
        rintro (rfl | hyc)
        · exact (List.nodup_cons.mp hl).1 hy
        · exact hs y (by simp [hy]) hyc
      simp [dedupFirst, hx, ih (x :: s) (List.nodup_cons.mp hl).2 hxs]

theorem mem_of_mem_dedupFirst {s l : List String} {x : String}
    (h : x ∈ dedupFirst s l) : x ∈ l := by
  induction l generalizing s with
  | nil => simp [dedupFirst] at h
  | cons y ys ih =>
      by_cases hy : y ∈ s
      · simp only [dedupFirst, if_pos hy] at h
        exact List.mem_cons_of_mem y (ih h)
      · simp only [dedupFirst, if_neg hy, List.mem_cons] at h
        rcases h with rfl | h
        · simp
        · exact List.mem_cons_of_mem y (ih h)

theorem not_mem_seen_of_mem_dedupFirst {s l : List String} {x : String}
    (h : x ∈ dedupFirst s l) : x ∉ s := by
  induction l generalizing s with
  | nil => simp [dedupFirst] at h
  | cons y ys ih =>
      by_cases hy : y ∈ s
      · simp only [dedupFirst, if_pos hy] at h
        exact ih h
      · simp only [dedupFirst, if_neg hy, List.mem_cons] at h
        rcases h with rfl | h
        · exact hy
        · intro hx
          exact ih h (List.mem_cons_of_mem y hx)

theorem nodup_dedupFirst (s l : List String) : (dedupFirst s l).Nodup := by
  induction l generalizing s with
  | nil => simp [dedupFirst]
  | cons x xs ih =>
      by_cases hx : x ∈ s
      · simpa [dedupFirst, hx] using ih s
      · simp only [dedupFirst, if_neg hx]
        refine List.nodup_cons.mpr ⟨?_, ih (x :: s)⟩
        intro hc
        exact not_mem_seen_of_mem_dedupFirst hc (by simp)

/-- With a duplicate-free current list, the `Set`-union keeps the current
assignees in order and appends the genuinely new people in given order. -/
theorem dedupFirst_union_eq (cur ppl : List String) (hcur : cur.Nodup) :
    dedupFirst [] (cur ++ ppl) = cur ++ dedupFirst cur ppl := by
  rw [dedupFirst_append [] cur ppl,
    dedupFirst_eq_self [] cur hcur (by simp)]
  have hmem : ∀ y, y ∈ cur ++ ([] : List String) ↔ y ∈ cur := by
    intro y
    simp
  rw [dedupFirst_congr (cur ++ []) cur ppl hmem]

theorem lookupA_foldIds_frame (op : AssignmentAction) (ids : List String)
    (a : Assignments) (id : String) (h : id ∉ ids) :
    lookupA (ids.foldl (applyActionItem op) a) id = lookupA a id := by
  induction ids generalizing a with
  | nil => rfl
  | cons i rest ih =>
      have hne : id ≠ i := fun hc => h (by simp [hc])
      have hrest : id ∉ rest := fun hc => h (by simp [hc])
      rw [List.foldl_cons, ih _ hrest]
      cases hop : op.action <;>
        simp [applyActionItem, hop, lookupA_setKey_ne _ i id _ (Ne.symm hne)]

theorem hasKey_foldIds_mono (op : AssignmentAction) (ids : List String)
    (a : Assignments) (id : String) (h : hasKey a id = true) :
    hasKey (ids.foldl (applyActionItem op) a) id = true := by
  induction ids generalizing a with
  | nil => exact h
  | cons i rest ih =>
      rw [List.foldl_cons]
      refine ih _ ?_
      cases hop : op.action <;>
        simp [applyActionItem, hop] <;>
        exact hasKey_setKey_mono _ _ _ _ h

theorem lookupD_foldIds (op : AssignmentAction) (ids : List String)
    (a : Assignments) (id : String) (hids : ids.Nodup) (hid : id ∈ ids) :
    lookupD (ids.foldl (applyActionItem op) a) id =
      actionOnList op (lookupD a id) := by
  induction ids generalizing a with
  | nil => cases hid
  | cons i rest ih =>
      obtain ⟨hni, hnr⟩ := List.nodup_cons.mp hids
      rw [List.foldl_cons]
      rcases List.mem_cons.mp hid with rfl | hmem
      · have hfr : lookupA (rest.foldl (applyActionItem op) (applyActionItem op a id)) id
            = lookupA (applyActionItem op a id) id := lookupA_foldIds_frame op rest _ id hni
        have : lookupD (applyActionItem op a id) id = actionOnList op (lookupD a id) := by
          cases hop : op.action <;>
            simp [applyActionItem, hop, actionOnList, lookupD_setKey_self]
        rw [lookupD, hfr, ← lookupD, this]
      · have hpre : lookupD (applyActionItem op a i) id = lookupD a id := by
          have hne : i ≠ id := fun hc => hni (hc ▸ hmem)
          cases hop : op.action <;>
            simp [applyActionItem, hop, lookupD_setKey_ne _ i id _ hne]
        rw [ih _ hnr hmem, hpre]

theorem wellFormed_setKey (a : Assignments) (id : String) (v : List String)
    (ha : WellFormed a) (hv : v.Nodup) : WellFormed (setKey a id v) := by
  intro k
  by_cases h : id = k
  · subst h
    rw [lookupD_setKey_self]
    exact hv
  · rw [lookupD_setKey_ne a id k v h]
    exact ha k

theorem wellFormed_applyActionItem (op : AssignmentAction) (a : Assignments)
    (i : String) (ha : WellFormed a) :
    WellFormed (applyActionItem op a i) := by
  cases hop : op.action
  · simp only [applyActionItem, hop]
    exact wellFormed_setKey a i _ ha (nodup_dedupFirst [] _)
  · simp only [applyActionItem, hop]
    exact wellFormed_setKey a i _ ha (List.Nodup.filter _ (ha i))

theorem applyActionItem_eq_spec (op : AssignmentAction) (a : Assignments)
    (i : String) (ha : WellFormed a) :
    applyActionItem op a i = specApplyActionItem op a i := by
  cases hop : op.action
  · simp only [applyActionItem, specApplyActionItem, hop, specAssignUnion]
    rw [dedupFirst_union_eq (lookupD a i) op.people (ha i)]
  · simp only [applyActionItem, specApplyActionItem, hop, specSetMinus]

theorem foldIds_eq_spec (op : AssignmentAction) (ids : List String)
    (a : Assignments) (ha : WellFormed a) :
    ids.foldl (applyActionItem op) a = ids.foldl (specApplyActionItem op) a ∧
      WellFormed (ids.foldl (applyActionItem op) a) := by
  induction ids generalizing a with
  | nil => exact ⟨rfl, ha⟩
  | cons i rest ih =>
      have hstep := applyActionItem_eq_spec op a i ha
      have hwf := wellFormed_applyActionItem op a i ha
      obtain ⟨heq, hwf'⟩ := ih (applyActionItem op a i) hwf
      refine ⟨?_, ?_⟩
      · rw [List.foldl_cons, List.foldl_cons, heq, hstep]
      · rw [List.foldl_cons]
        exact hwf'

theorem applyActions_eq_spec_aux (actions : List AssignmentAction)
    (a : Assignments) (ha : WellFormed a) :
    applyActions a actions = specApplyActions a actions ∧
      WellFormed (applyActions a actions) := by
  induction actions generalizing a with
  | nil => exact ⟨rfl, ha⟩
  | cons op rest ih =>
      obtain ⟨heq, hwf⟩ := foldIds_eq_spec op op.itemIds a ha
      obtain ⟨heq', hwf'⟩ := ih _ hwf
      refine ⟨?_, ?_⟩
      · simp only [applyActions, specApplyActions, List.foldl_cons] at heq' ⊢
        rw [heq', heq]
      · simp only [applyActions, List.foldl_cons] at hwf' ⊢
        exact hwf'

theorem totalAssignedSubtotal_addShare (personName : String) (share : ℚ)
    (item : ReceiptItem) (m : List PersonTotal) :
    totalAssignedSubtotal (addShare personName share item m) =
      totalAssignedSubtotal m + share := by
  induction m with
  | nil => simp [addShare, totalAssignedSubtotal]
  | cons p ps ih =>
      by_cases h : p.name = personName
      · simp [addShare, h, totalAssignedSubtotal]
        ring
      · simp only [addShare, if_neg h, totalAssignedSubtotal, List.map_cons,
          List.sum_cons] at ih ⊢
        rw [ih]
        ring

theorem totalAssignedSubtotal_foldShares (ppl : List String) (share : ℚ)
    (item : ReceiptItem) (m : List PersonTotal) :
    totalAssignedSubtotal
        (ppl.foldl (fun m pn => addShare pn share item m) m) =
      totalAssignedSubtotal m + ppl.length * share := by
  induction ppl generalizing m with
  | nil => simp
  | cons q rest ih =>
      rw [List.foldl_cons, ih, totalAssignedSubtotal_addShare]
      simp only [List.length_cons]
      push_cast
      ring

theorem subtotalOf_addShare_self (personName : String) (share : ℚ)
    (item : ReceiptItem) (m : List PersonTotal) :
    subtotalOf (addShare personName share item m) personName =
      subtotalOf m personName + share := by
  induction m with
  | nil => simp [addShare, subtotalOf, List.find?]
  | cons p ps ih =>
      by_cases h : p.name = personName
      · simp [addShare, h, subtotalOf, List.find?]
      · simp only [addShare, if_neg h] at ih ⊢
        simp only [subtotalOf, List.find?] at ih ⊢
        simp only [h, decide_False] at ih ⊢
        exact ih

theorem subtotalOf_addShare_ne (personName other : String) (share : ℚ)
    (item : ReceiptItem) (m : List PersonTotal) (h : other ≠ personName) :
    subtotalOf (addShare personName share item m) other =
      subtotalOf m other := by
  have h' : personName ≠ other := Ne.symm h
  induction m with
  | nil => simp [addShare, subtotalOf, List.find?, h, h']
  | cons p ps ih =>
      by_cases hp : p.name = personName
      · have hpo : ¬ p.name = other := fun hc => h (hc ▸ hp)
        simp [addShare, hp, subtotalOf, List.find?, hpo, h, h']
      · by_cases hpo : p.name = other
        · simp [addShare, hp, subtotalOf, List.find?, hpo, h, h']
        · simp only [addShare, if_neg hp] at ih ⊢
          simp only [subtotalOf, List.find?] at ih ⊢
          simp only [hpo, decide_False] at ih ⊢
          exact ih

theorem subtotalOf_foldShares_frame (ppl : List String) (share : ℚ)
    (item : ReceiptItem) (m : List PersonTotal) (q : String)
    (h : q ∉ ppl) :
    subtotalOf (ppl.foldl (fun m pn => addShare pn share item m) m) q =
      subtotalOf m q := by
  induction ppl generalizing m with
  | nil => rfl
  | cons r rest ih =>
      have hqr : q ≠ r := fun hc => h (by simp [hc])
      have hqrest : q ∉ rest := fun hc => h (by simp [hc])
      rw [List.foldl_cons, ih _ hqrest, subtotalOf_addShare_ne r q share item m hqr]

theorem subtotalOf_foldShares (ppl : List String) (share : ℚ)
    (item : ReceiptItem) (m : List PersonTotal) (q : String)
    (hnd : ppl.Nodup) (hq : q ∈ ppl) :
    subtotalOf (ppl.foldl (fun m pn => addShare pn share item m) m) q =
      subtotalOf m q + share := by
  induction ppl generalizing m with
  | nil => cases hq
  | cons r rest ih =>
      obtain ⟨hr, hrest⟩ := List.nodup_cons.mp hnd
      rw [List.foldl_cons]
      rcases List.mem_cons.mp hq with rfl | hmem
      · rw [subtotalOf_foldShares_frame rest share item _ q hr,
          subtotalOf_addShare_self]
      · have hqr : q ≠ r := fun hc => hr (hc ▸ hmem)
        rw [ih _ hrest hmem, subtotalOf_addShare_ne r q share item m hqr]

theorem summaryFold_fst (a : Assignments) (l : List ReceiptItem)
    (m : List PersonTotal) (u : List ReceiptItem) :
    (l.foldl (summaryStep a) (m, u)).1 = l.foldl (peopleStep a) m := by
  induction l generalizing m u with
  | nil => rfl
  | cons it rest ih =>
      rw [List.foldl_cons, List.foldl_cons]
      by_cases h : lookupD a it.id = []
      · simp only [summaryStep, peopleStep, h, if_pos]
        exact ih m (u ++ [it])
      · simp only [summaryStep, peopleStep, if_neg h]
        exact ih _ u

theorem summaryFold_snd (a : Assignments) (l : List ReceiptItem)
    (m : List PersonTotal) (u : List ReceiptItem) :
    (l.foldl (summaryStep a) (m, u)).2 =
      u ++ l.filter (fun it => lookupD a it.id = []) := by
  induction l generalizing m u with
  | nil => simp
  | cons it rest ih =>
      rw [List.foldl_cons]
      by_cases h : lookupD a it.id = []
      · simp only [summaryStep, h, if_pos]
        rw [ih m (u ++ [it])]
        simp [List.filter_cons, h]
      · simp only [summaryStep, if_neg h]
        rw [ih _ u]
        simp [List.filter_cons, h]

theorem peopleFold_filter_assigned (a : Assignments) (l : List ReceiptItem)
    (m : List PersonTotal) :
    (l.filter (fun it => ¬ lookupD a it.id = [])).foldl (peopleStep a) m =
      l.foldl (peopleStep a) m := by
  induction l generalizing m with
  | nil => rfl
  | cons it rest ih =>
      simp only [decide_not] at ih ⊢
      by_cases h : lookupD a it.id = []
      · have hstep : peopleStep a m it = m := by
          simp [peopleStep, h]
        simp [List.filter_cons, h, hstep, ih]
      · simp [List.filter_cons, h, ih]

theorem addShare_items_pred (P : ReceiptItem → Prop) (personName : String)
    (share : ℚ) (item : ReceiptItem) (m : List PersonTotal)
    (hm : ∀ p ∈ m, ∀ it ∈ p.items, P it) (hit : P item) :
    ∀ p ∈ addShare personName share item m, ∀ it ∈ p.items, P it := by
  induction m with
  | nil =>
      intro p hp it hit'
      simp only [addShare, List.mem_singleton] at hp
      subst hp
      simp only [List.mem_singleton] at hit'
      subst hit'
      exact hit
  | cons q qs ih =>
      intro p hp it hit'
      by_cases h : q.name = personName
      · simp only [addShare, if_pos h, List.mem_cons] at hp
        rcases hp with rfl | hp
        · simp only [List.mem_append, List.mem_singleton] at hit'
          rcases hit' with hq | rfl
          · exact hm q (by simp) it hq
          · exact hit
        · exact hm p (by simp [hp]) it hit'
      · simp only [addShare, if_neg h, List.mem_cons] at hp
        rcases hp with rfl | hp
        · exact hm p (by simp) it hit'
        · exact ih (fun r hr => hm r (by simp [hr])) p hp it hit'

theorem foldShares_items_pred (P : ReceiptItem → Prop) (ppl : List String)
    (share : ℚ) (item : ReceiptItem) (m : List PersonTotal)
    (hm : ∀ p ∈ m, ∀ it ∈ p.items, P it) (hit : P item) :
    ∀ p ∈ ppl.foldl (fun m pn => addShare pn share item m) m,
      ∀ it ∈ p.items, P it := by
  induction ppl generalizing m with
  | nil => exact hm
  | cons r rest ih =>
      rw [List.foldl_cons]
      exact ih _ (addShare_items_pred P r share item m hm hit)

theorem peopleFold_items_pred (P : ReceiptItem → Prop) (a : Assignments)
    (l : List ReceiptItem) (m : List PersonTotal)
    (hm : ∀ p ∈ m, ∀ it ∈ p.items, P it)
    (hl : ∀ it ∈ l, lookupD a it.id ≠ [] → P it) :
    ∀ p ∈ l.foldl (peopleStep a) m, ∀ it ∈ p.items, P it := by
  induction l generalizing m with
  | nil => exact hm
  | cons it rest ih =>
      rw [List.foldl_cons]
      refine ih _ ?_ (fun j hj hne => hl j (by simp [hj]) hne)
      by_cases h : lookupD a it.id = []
      · simpa [peopleStep, h] using hm
      · simp only [peopleStep, if_neg h]
        exact foldShares_items_pred P _ _ it m hm (hl it (by simp) h)

theorem mem_summary_people (d : ReceiptData) (a : Assignments)
    (p : PersonTotal) (hp : p ∈ (summary d a).1) :
    ∃ q ∈ d.items.foldl (peopleStep a) [],
      p = { q with
              tax := d.tax *
                (if 0 < d.subtotal then q.subtotal / d.subtotal else 0),
              tip := d.tip *
                (if 0 < d.subtotal then q.subtotal / d.subtotal else 0),
              total := q.subtotal
                + d.tax * (if 0 < d.subtotal then q.subtotal / d.subtotal else 0)
                + d.tip * (if 0 < d.subtotal then q.subtotal / d.subtotal else 0) } := by
  simp only [summary, summaryFold_fst, List.mem_map] at hp
  obtain ⟨q, hq, hpq⟩ := hp
  exact ⟨q, hq, hpq.symm⟩

theorem summary_people_fields (d : ReceiptData) (a : Assignments)
    (p : PersonTotal) (hp : p ∈ (summary d a).1) :
    p.tax = d.tax * (if 0 < d.subtotal then p.subtotal / d.subtotal else 0) ∧
    p.tip = d.tip * (if 0 < d.subtotal then p.subtotal / d.subtotal else 0) ∧
    p.total = p.subtotal + p.tax + p.tip := by
  obtain ⟨q, _, rfl⟩ := mem_summary_people d a p hp
  refine ⟨rfl, rfl, rfl⟩

theorem summaryStep_congr (a₁ a₂ : Assignments)
    (st : List PersonTotal × List ReceiptItem) (it : ReceiptItem)
    (h : lookupD a₁ it.id = lookupD a₂ it.id) :
    summaryStep a₁ st it = summaryStep a₂ st it := by
  simp only [summaryStep, h]

theorem summaryFold_congr (a₁ a₂ : Assignments) (l : List ReceiptItem)
    (st : List PersonTotal × List ReceiptItem)
    (h : ∀ it ∈ l, lookupD a₁ it.id = lookupD a₂ it.id) :
    l.foldl (summaryStep a₁) st = l.foldl (summaryStep a₂) st := by
  induction l generalizing st with
  | nil => rfl
  | cons it rest ih =>
      rw [List.foldl_cons, List.foldl_cons,
        summaryStep_congr a₁ a₂ st it (h it (by simp))]
      exact ih _ (fun j hj => h j (by simp [hj]))

theorem summary_congr (d : ReceiptData) (a₁ a₂ : Assignments)
    (h : ∀ it ∈ d.items, lookupD a₁ it.id = lookupD a₂ it.id) :
    summary d a₁ = summary d a₂ := by
  simp only [summary]
  rw [summaryFold_congr a₁ a₂ d.items ([], []) h]

theorem hasKey_foldIds_of_mem (op : AssignmentAction) (ids : List String)
    (a : Assignments) (id : String) (h : id ∈ ids) :
    hasKey (ids.foldl (applyActionItem op) a) id = true := by
  induction ids generalizing a with
  | nil => cases h
  | cons i rest ih =>
      rw [List.foldl_cons]
      rcases List.mem_cons.mp h with rfl | hmem
      · refine hasKey_foldIds_mono op rest _ id ?_
        cases hop : op.action <;>
          simp [applyActionItem, hop, hasKey_setKey_self]
      · exact ih _ hmem

/-- C1: for every well-formed assignments mapping and every ordered batch
of actions, the reducer is the left-to-right sequential fold (later actions
observe earlier ones) in which, per targeted item id with
`current = the stored list or empty if absent`, an assign action yields the
insertion-ordered set union of `current` with the action's people
(previously-assigned people keep their relative order, new people are
appended in the order given, duplicates collapse) and an unassign action
yields the set difference. -/
theorem reducer_matches_spec_fold (A : Assignments)
    (actions : List AssignmentAction) (hwf : WellFormed A) :
    applyActions A actions = specApplyActions A actions :=
  (applyActions_eq_spec_aux actions A hwf).1

theorem reducer_matches_spec_fold_witness :
    WellFormed [("1", ["Tom"])] ∧
    applyActions [("1", ["Tom"])]
        [⟨["1", "2"], ["Ana", "Tom", "Ana"], ActionKind.assign⟩,
         ⟨["1"], ["Tom"], ActionKind.unassign⟩] =
      specApplyActions [("1", ["Tom"])]
        [⟨["1", "2"], ["Ana", "Tom", "Ana"], ActionKind.assign⟩,
         ⟨["1"], ["Tom"], ActionKind.unassign⟩] := by
  have hwf : WellFormed [("1", ["Tom"])] := by
    intro id
    simp only [lookupD, lookupA]
    split <;> simp
  exact ⟨hwf, reducer_matches_spec_fold _ _ hwf⟩

/-- C9: the reducer is a pure function returning a new mapping (inherent to
the functional embedding), and any item id not targeted by any action of
the batch keeps exactly the binding it had before — present with the same
list, or absent. -/
theorem reducer_frame_untargeted_ids (a : Assignments)
    (actions : List AssignmentAction) (id : String)
    (h : ∀ op ∈ actions, id ∉ op.itemIds) :
    lookupA (applyActions a actions) id = lookupA a id := by
  induction actions generalizing a with
  | nil => rfl
  | cons op rest ih =>
      have hstep : applyActions a (op :: rest) =
          applyActions (op.itemIds.foldl (applyActionItem op) a) rest := rfl
      rw [hstep, ih _ (fun o ho => h o (List.mem_cons_of_mem op ho)),
        lookupA_foldIds_frame op op.itemIds a id (h op (by simp))]

theorem reducer_frame_untargeted_ids_witness :
    (∀ op ∈ [⟨["1"], ["Ana"], ActionKind.assign⟩,
             ⟨["2"], ["Tom"], ActionKind.unassign⟩],
        "3" ∉ AssignmentAction.itemIds op) ∧
    lookupA (applyActions [("3", ["Bob"])]
        [⟨["1"], ["Ana"], ActionKind.assign⟩,
         ⟨["2"], ["Tom"], ActionKind.unassign⟩]) "3" =
      lookupA [("3", ["Bob"])] "3" :=
  ⟨by decide, reducer_frame_untargeted_ids _ _ _ (by decide)⟩

/-- C10: when the external command interpretation fails, the stored
assignments are exactly the prior ones (no partial application) and the
transcript for that command gains only the user's message and the fixed
apology message. -/
theorem interpretation_failure_preserves_assignments (st : AppState)
    (text : String) (now : Nat) :
    handleSendMessage st text now (Except.error ()) =
      { assignments := st.assignments,
        messages := st.messages ++
          [userMessage now text,
           { id := toString (now + 1), role := Role.assistant,
             text := apologyText, timestamp := now }] } := by
  simp [handleSendMessage]

/-- C7: assigning a set of people to a set of items and then unassigning
the same people from the same items restores the starting state, observed
through lookups with an absent key equal to the empty list, provided the
starting state is well-formed and none of the people were already on those
items. -/
theorem reducer_assign_unassign_inverse (A : Assignments)
    (itemIds people : List String) (hwf : WellFormed A)
    (hids : itemIds.Nodup) (_hne : people ≠ [])
    (hdisj : ∀ id ∈ itemIds, ∀ p ∈ people, p ∉ lookupD A id) :
    ∀ id,
      lookupD (applyActions
          (applyActions A [⟨itemIds, people, ActionKind.assign⟩])
          [⟨itemIds, people, ActionKind.unassign⟩]) id =
        lookupD A id := by
  intro id
  have hA1 : applyActions A [⟨itemIds, people, ActionKind.assign⟩] =
      itemIds.foldl (applyActionItem ⟨itemIds, people, ActionKind.assign⟩) A := rfl
  have hA2 : ∀ B : Assignments,
      applyActions B [⟨itemIds, people, ActionKind.unassign⟩] =
        itemIds.foldl (applyActionItem ⟨itemIds, people, ActionKind.unassign⟩) B :=
    fun B => rfl
  rw [hA1, hA2]
  by_cases hid : id ∈ itemIds
  · rw [lookupD_foldIds _ itemIds _ id hids hid,
      lookupD_foldIds _ itemIds _ id hids hid]
    simp only [actionOnList]
    set cur := lookupD A id with hcur
    have hnodup : cur.Nodup := hwf id
    rw [dedupFirst_union_eq cur people hnodup, List.filter_append]
    have hcurf : cur.filter (fun p => p ∉ people) = cur := by
      rw [List.filter_eq_self]
      intro x hx
      simp only [decide_eq_true_eq]
      intro hxp
      exact hdisj id hid x hxp hx
    have hdedupf : (dedupFirst cur people).filter (fun p => p ∉ people) = [] := by
      rw [List.filter_eq_nil_iff]
      intro x hx
      simp only [decide_eq_true_eq, not_not]
      exact mem_of_mem_dedupFirst hx
    rw [hcurf, hdedupf, List.append_nil]
  · rw [lookupD, lookupA_foldIds_frame _ itemIds _ id hid, ← lookupD,
      lookupD, lookupA_foldIds_frame _ itemIds _ id hid, ← lookupD]

theorem reducer_assign_unassign_inverse_witness :
    WellFormed [("1", ["Tom"])] ∧
    (["1", "2"] : List String).Nodup ∧
    (["Ana", "Bea"] : List String) ≠ [] ∧
    (∀ id ∈ ["1", "2"], ∀ p ∈ ["Ana", "Bea"],
        p ∉ lookupD [("1", ["Tom"])] id) ∧
    (∀ id,
      lookupD (applyActions
          (applyActions [("1", ["Tom"])]
            [⟨["1", "2"], ["Ana", "Bea"], ActionKind.assign⟩])
          [⟨["1", "2"], ["Ana", "Bea"], ActionKind.unassign⟩]) id =
        lookupD [("1", ["Tom"])] id) := by
  have hwf : WellFormed [("1", ["Tom"])] := by
    intro id
    simp only [lookupD, lookupA]
    split <;> simp
  exact ⟨hwf, by decide, by decide, by decide,
    reducer_assign_unassign_inverse _ _ _ hwf (by decide) (by decide) (by decide)⟩

/-- C2: when an item is assigned to `n ≥ 1` people, the settlement step
adds exactly `item.price / n` to each assignee's subtotal (each assignee
listed once) and the total mass added across the people map is exactly
`item.price` — the receipt price is split by the number of assignees, never
by the item's quantity. -/
theorem settlement_item_conservation (a : Assignments)
    (st : List PersonTotal × List ReceiptItem) (item : ReceiptItem)
    (n : ℕ) (hn : n = (lookupD a item.id).length) (h1 : 1 ≤ n) :
    totalAssignedSubtotal (summaryStep a st item).1 =
      totalAssignedSubtotal st.1 + item.price ∧
    ((lookupD a item.id).Nodup →
      ∀ pn ∈ lookupD a item.id,
        subtotalOf (summaryStep a st item).1 pn =
          subtotalOf st.1 pn + item.price / (n : ℚ)) := by
  have hne : lookupD a item.id ≠ [] := by
    intro hc
    rw [hc] at hn
    simp at hn
    omega
  have hn0 : (n : ℚ) ≠ 0 := Nat.cast_ne_zero.mpr (by omega)
  constructor
  · simp only [summaryStep, if_neg hne]
    rw [totalAssignedSubtotal_foldShares, ← hn]
    rw [mul_comm, div_mul_cancel₀ item.price hn0]
  · intro hnd pn hpn
    simp only [summaryStep, if_neg hne]
    rw [subtotalOf_foldShares _ _ _ _ _ hnd hpn, hn]

theorem settlement_item_conservation_witness :
    2 = (lookupD scenarioAssignments friesItem.id).length ∧ 1 ≤ 2 ∧
    (totalAssignedSubtotal
        (summaryStep scenarioAssignments ([], []) friesItem).1 =
      totalAssignedSubtotal ([] : List PersonTotal) + friesItem.price ∧
    ((lookupD scenarioAssignments friesItem.id).Nodup →
      ∀ pn ∈ lookupD scenarioAssignments friesItem.id,
        subtotalOf (summaryStep scenarioAssignments ([], []) friesItem).1 pn =
          subtotalOf ([] : List PersonTotal) pn + friesItem.price / (2 : ℚ))) :=
  ⟨by decide, by decide,
    settlement_item_conservation scenarioAssignments ([], []) friesItem 2
      (by decide) (by decide)⟩

/-- C3: tax (and tip) are distributed proportionally to each person's share
of the receipt's stated subtotal, so for any two output rows with nonzero
subtotals the tax ratio equals the subtotal ratio: the cross products
agree, and whenever the receipt's tax is nonzero the literal quotients
agree as well. -/
theorem settlement_tax_proportionality (d : ReceiptData) (a : Assignments)
    (A B : PersonTotal) (hA : A ∈ (summary d a).1) (hB : B ∈ (summary d a).1)
    (hsub : 0 < d.subtotal) (_hA0 : A.subtotal ≠ 0) (hB0 : B.subtotal ≠ 0) :
    A.tax * B.subtotal = B.tax * A.subtotal ∧
    (d.tax ≠ 0 → A.tax / B.tax = A.subtotal / B.subtotal) := by
  obtain ⟨hAtax, -, -⟩ := summary_people_fields d a A hA
  obtain ⟨hBtax, -, -⟩ := summary_people_fields d a B hB
  rw [if_pos hsub] at hAtax hBtax
  have hds : d.subtotal ≠ 0 := ne_of_gt hsub
  constructor
  · rw [hAtax, hBtax]
    field_simp
    ring
  · intro htax
    rw [hAtax, hBtax]
    rw [div_eq_div_iff]
    · field_simp
      ring
    · exact mul_ne_zero htax (div_ne_zero hB0 hds)
    · exact hB0

theorem scenario_summary_eval :
    summary scenarioReceipt scenarioAssignments =
      ([scenarioTomRow, scenarioAnaRow], ([] : List ReceiptItem)) := by
  simp only [scenarioReceipt, scenarioAssignments, burgerItem, friesItem,
    scenarioTomRow, scenarioAnaRow]
  simp [summary, summaryStep, addShare, lookupD, lookupA, String.reduceEq,
    List.foldl_cons, List.foldl_nil]
  norm_num

theorem settlement_tax_proportionality_witness :
    ∃ A ∈ (summary scenarioReceipt scenarioAssignments).1,
      ∃ B ∈ (summary scenarioReceipt scenarioAssignments).1,
        0 < scenarioReceipt.subtotal ∧
        A.subtotal ≠ 0 ∧ B.subtotal ≠ 0 ∧
        A.tax * B.subtotal = B.tax * A.subtotal ∧
        (scenarioReceipt.tax ≠ 0 →
          A.tax / B.tax = A.subtotal / B.subtotal) := by
  have hTom : scenarioTomRow ∈ (summary scenarioReceipt scenarioAssignments).1 := by
    rw [scenario_summary_eval]
    simp
  have hAna : scenarioAnaRow ∈ (summary scenarioReceipt scenarioAssignments).1 := by
    rw [scenario_summary_eval]
    simp
  have hsub : 0 < scenarioReceipt.subtotal := by
    norm_num [scenarioReceipt]
  have hT0 : scenarioTomRow.subtotal ≠ 0 := by
    norm_num [scenarioTomRow]
  have hA0 : scenarioAnaRow.subtotal ≠ 0 := by
    norm_num [scenarioAnaRow]
  exact ⟨scenarioTomRow, hTom, scenarioAnaRow, hAna, hsub, hT0, hA0,
    (settlement_tax_proportionality scenarioReceipt scenarioAssignments
      scenarioTomRow scenarioAnaRow hTom hAna hsub hT0 hA0).1,
    (settlement_tax_proportionality scenarioReceipt scenarioAssignments
      scenarioTomRow scenarioAnaRow hTom hAna hsub hT0 hA0).2⟩

/-- C4: the items with an empty (or absent, treated identically) assignee
set are exactly the returned unassigned list, in receipt order; no item in
any person's items list is unassigned; and dropping the unassigned items
from the receipt leaves the people output — subtotals included —
unchanged, so an unassigned item contributes nothing to anyone. -/
theorem settlement_unassigned_tracking (d : ReceiptData) (a : Assignments) :
    (summary d a).2 = d.items.filter (fun it => lookupD a it.id = []) ∧
    (∀ p ∈ (summary d a).1, ∀ it ∈ p.items, lookupD a it.id ≠ []) ∧
    (summary d a).1 =
      (summary { d with
          items := d.items.filter (fun it => ¬ lookupD a it.id = []) } a).1 := by
  refine ⟨?_, ?_, ?_⟩
  · simp only [summary, summaryFold_snd]
    rfl
  · intro p hp it hit
    obtain ⟨q, hq, rfl⟩ := mem_summary_people d a p hp
    exact peopleFold_items_pred (fun j => lookupD a j.id ≠ []) a d.items []
      (by simp) (fun j _ h => h) q hq it hit
  · simp only [summary, summaryFold_fst]
    rw [peopleFold_filter_assigned]

theorem settlement_unassigned_tracking_witness :
    (summary scenarioReceipt [("1", ["Tom"])]).2 =
      scenarioReceipt.items.filter
        (fun it => lookupD [("1", ["Tom"])] it.id = []) ∧
    (∀ p ∈ (summary scenarioReceipt [("1", ["Tom"])]).1,
      ∀ it ∈ p.items, lookupD [("1", ["Tom"])] it.id ≠ []) ∧
    (summary scenarioReceipt [("1", ["Tom"])]).1 =
      (summary { scenarioReceipt with
          items := scenarioReceipt.items.filter
            (fun it => ¬ lookupD [("1", ["Tom"])] it.id = []) }
        [("1", ["Tom"])]).1 :=
  settlement_unassigned_tracking scenarioReceipt [("1", ["Tom"])]

/-- C5: with a zero receipt subtotal every person's tax and tip are zero
and their total equals their subtotal, whatever that subtotal is. -/
theorem settlement_zero_subtotal_degenerate (d : ReceiptData)
    (a : Assignments) (h : d.subtotal = 0) :
    ∀ p ∈ (summary d a).1,
      p.tax = 0 ∧ p.tip = 0 ∧ p.total = p.subtotal := by
  intro p hp
  obtain ⟨htax, htip, htot⟩ := summary_people_fields d a p hp
  have hlt : ¬ 0 < d.subtotal := by
    rw [h]
    exact lt_irrefl 0
  rw [if_neg hlt, mul_zero] at htax htip
  exact ⟨htax, htip, by rw [htot, htax, htip, add_zero, add_zero]⟩

theorem settlement_zero_subtotal_degenerate_witness :
    ReceiptData.subtotal
        { items := [{ id := "1", name := "Gift", price := 0, quantity := 1 }],
          subtotal := 0, tax := 5, tip := 7, total := 12, currency := "$" } = 0 ∧
    ∀ p ∈ (summary
        { items := [{ id := "1", name := "Gift", price := 0, quantity := 1 }],
          subtotal := 0, tax := 5, tip := 7, total := 12, currency := "$" }
        [("1", ["Tom"])]).1,
      p.tax = 0 ∧ p.tip = 0 ∧ p.total = p.subtotal :=
  ⟨rfl, settlement_zero_subtotal_degenerate _ [("1", ["Tom"])] rfl⟩

/-- C6: on the spec's worked scenario (burger 10 to Tom, fries 6 shared by
Tom and Ana, subtotal 16, tax 1.6, tip 3.2) the settlement returns
Tom with subtotal 13, tax 1.3, tip 2.6, total 16.9, Ana with subtotal 3,
tax 0.3, tip 0.6, total 3.9, and an empty unassigned list. -/
theorem settlement_scenario_burger_fries :
    summary scenarioReceipt scenarioAssignments =
      ([{ name := "Tom", subtotal := 13, tax := 13 / 10, tip := 13 / 5,
          total := 169 / 10, items := [burgerItem, friesItem] },
        { name := "Ana", subtotal := 3, tax := 3 / 10, tip := 3 / 5,
          total := 39 / 10, items := [friesItem] }],
       []) :=
  scenario_summary_eval

/-- C8: an action targeting an item id absent from the receipt is applied
without error and leaves an entry for that id in the store; the settlement
iterates only the receipt's items, so every reported item (per person or
unassigned) is a receipt item and never carries the unknown id, and the
unknown entry's value has no effect at all on the settlement output. -/
theorem reducer_unknown_item_permissive (a : Assignments)
    (op : AssignmentAction) (d : ReceiptData) (uid : String)
    (hin : uid ∈ op.itemIds) (hunk : ∀ it ∈ d.items, it.id ≠ uid) :
    hasKey (applyActions a [op]) uid = true ∧
    (∀ v, summary d (setKey a uid v) = summary d a) ∧
    (∀ p ∈ (summary d a).1, ∀ it ∈ p.items, it ∈ d.items ∧ it.id ≠ uid) ∧
    (∀ it ∈ (summary d a).2, it ∈ d.items ∧ it.id ≠ uid) := by
  refine ⟨?_, ?_, ?_, ?_⟩
  · exact hasKey_foldIds_of_mem op op.itemIds a uid hin
  · intro v
    refine summary_congr d _ a (fun it hit => ?_)
    exact lookupD_setKey_ne a uid it.id v (Ne.symm (hunk it hit))
  · intro p hp it hit
    obtain ⟨q, hq, rfl⟩ := mem_summary_people d a p hp
    exact peopleFold_items_pred (fun j => j ∈ d.items ∧ j.id ≠ uid) a d.items []
      (by simp) (fun j hj _ => ⟨hj, hunk j hj⟩) q hq it hit
  · intro it hit
    simp only [summary, summaryFold_snd, List.nil_append] at hit
    have hmem : it ∈ d.items := List.mem_of_mem_filter hit
    exact ⟨hmem, hunk it hmem⟩

theorem reducer_unknown_item_permissive_witness :
    ("99" ∈ (["99"] : List String)) ∧
    (∀ it ∈ scenarioReceipt.items, it.id ≠ "99") ∧
    (hasKey (applyActions [] [⟨["99"], ["Tom"], ActionKind.assign⟩]) "99" = true ∧
    (∀ v, summary scenarioReceipt (setKey [] "99" v) =
      summary scenarioReceipt ([] : Assignments)) ∧
    (∀ p ∈ (summary scenarioReceipt ([] : Assignments)).1,
      ∀ it ∈ p.items, it ∈ scenarioReceipt.items ∧ it.id ≠ "99") ∧
    (∀ it ∈ (summary scenarioReceipt ([] : Assignments)).2,
      it ∈ scenarioReceipt.items ∧ it.id ≠ "99")) :=
  ⟨by decide, by decide,
    reducer_unknown_item_permissive [] ⟨["99"], ["Tom"], ActionKind.assign⟩
      scenarioReceipt "99" (by decide) (by decide)⟩

